import Mathlib

/-!
Shallow embedding of the Bespin (BSP) blockchain consensus core:
the transaction model (transaction.py), the UTXO index (utxo_set.py),
the Merkle tree (merkle_tree.py), blocks (blockchain.py) and the ledger
state machine (chain.py).  The SHA-256 / ECDSA primitives of
crypto_utils.py operate on raw bytes and are modelled as parameters
(HashModel, SigModel); every other function is translated directly from
the Python source.  Amounts (Python floats) are modelled as rationals.
-/

namespace Bespin

/-- Model of the double-SHA-256 based primitives of crypto_utils.py.
hashStr models double_sha256(s.encode()).hex() applied to a JSON string;
hashPair models double_sha256(bytes.fromhex(l) + bytes.fromhex(r)).hex()
as used by the Merkle tree. -/
structure HashModel where
  hashStr : String → String
  hashPair : String → String → String

/-- Model of the ECDSA wallet operations of crypto_utils.py.
sign sk m models Wallet.sign (hex rendering of the signature),
verify pk sg m models Wallet.verify_signature, pubkeyOf sk models
get_public_key_hex of the wallet holding sk, and addressOfPub models
the base58check address derivation from a public key hex string. -/
structure SigModel where
  sign : String → String → String
  verify : String → String → String → Bool
  pubkeyOf : String → String
  addressOfPub : String → String

/-- UTXO dataclass of transaction.py. -/
structure UTXO where
  txid : String
  vout : Nat
  amount : ℚ
  script_pubkey : String
deriving DecidableEq, Repr

/-- TxInput dataclass of transaction.py. -/
structure TxInput where
  txid : String
  vout : Nat
  script_sig : String
  sequence : Nat := 4294967295
deriving DecidableEq, Repr

/-- TxOutput dataclass of transaction.py. -/
structure TxOutput where
  amount : ℚ
  script_pubkey : String
deriving DecidableEq, Repr

/-- Transaction of transaction.py.  txid is an ordinary stored field:
the Python constructor assigns it once from calculate_txid, and the
block-submission endpoint (api.py submit_mined_block) overwrites it from
the submitted payload. -/
structure Transaction where
  version : Nat := 1
  inputs : List TxInput
  outputs : List TxOutput
  locktime : Nat := 0
  timestamp : ℚ
  txid : String
deriving DecidableEq, Repr

/-- The 64-character zero string used as the coinbase previous txid and
as the Merkle root of an empty tree. -/
def zeros64 : String := String.mk (List.replicate 64 '0')

/-- Transaction.is_coinbase of transaction.py: exactly one input whose
previous txid is 64 zeros and whose vout is 0xffffffff. -/
def Transaction.is_coinbase (tx : Transaction) : Bool :=
  match tx.inputs with
  | [inp] => inp.txid == zeros64 && inp.vout == 4294967295
  | _ => false

/-- UTXO dictionary key, f-string rendering of utxo_set.py. -/
def mkKey (txid : String) (vout : Nat) : String :=
  txid ++ ":" ++ Nat.repr vout

/-- Python dict assignment: replace the value of an existing key in
place, otherwise append the binding. -/
def listInsert (k : String) (u : UTXO) : List (String × UTXO) → List (String × UTXO)
  | [] => [(k, u)]
  | (k₀, u₀) :: rest =>
      if k₀ = k then (k, u) :: rest else (k₀, u₀) :: listInsert k u rest

/-- Python dict pop: drop the first binding of the key. -/
def listRemove (k : String) : List (String × UTXO) → List (String × UTXO)
  | [] => []
  | (k₀, u₀) :: rest =>
      if k₀ = k then rest else (k₀, u₀) :: listRemove k rest

/-- Python dict get. -/
def listLookup (k : String) : List (String × UTXO) → Option UTXO
  | [] => none
  | (k₀, u₀) :: rest => if k₀ = k then some u₀ else listLookup k rest

/-- UTXOSet of utxo_set.py: the key of each binding is "txid:vout". -/
structure UTXOSet where
  utxos : List (String × UTXO)
deriving DecidableEq, Repr

/-- UTXOSet.add_utxo of utxo_set.py. -/
def UTXOSet.add_utxo (s : UTXOSet) (u : UTXO) : UTXOSet :=
  ⟨listInsert (mkKey u.txid u.vout) u s.utxos⟩

/-- UTXOSet.remove_utxo of utxo_set.py: remove and return the UTXO. -/
def UTXOSet.remove_utxo (s : UTXOSet) (txid : String) (vout : Nat) :
    Option UTXO × UTXOSet :=
  match listLookup (mkKey txid vout) s.utxos with
  | none => (none, s)
  | some u => (some u, ⟨listRemove (mkKey txid vout) s.utxos⟩)

/-- UTXOSet.get_utxo of utxo_set.py. -/
def UTXOSet.get_utxo (s : UTXOSet) (txid : String) (vout : Nat) : Option UTXO :=
  listLookup (mkKey txid vout) s.utxos

/-- UTXOSet.get_balance of utxo_set.py. -/
def UTXOSet.get_balance (s : UTXOSet) (address : String) : ℚ :=
  ((s.utxos.map Prod.snd).filter (fun u => u.script_pubkey == address)).foldl
    (fun acc u => acc + u.amount) 0

/-- The input-removal loop of UTXOSet.process_transaction: remove spent
UTXOs one by one, stopping at the first missing one.  On failure the
removals already performed are kept, exactly as in the Python source
which mutates the set in place. -/
def removeInputs (s : UTXOSet) : List TxInput → Bool × UTXOSet
  | [] => (true, s)
  | inp :: rest =>
      match s.remove_utxo inp.txid inp.vout with
      | (none, s₁) => (false, s₁)
      | (some _, s₁) => removeInputs s₁ rest

/-- The output-insertion loop of UTXOSet.process_transaction, with the
running output index. -/
def addOutputs (txid : String) : UTXOSet → Nat → List TxOutput → UTXOSet
  | s, _, [] => s
  | s, vout, out :: rest =>
      addOutputs txid (s.add_utxo ⟨txid, vout, out.amount, out.script_pubkey⟩)
        (vout + 1) rest

/-- UTXOSet.process_transaction of utxo_set.py. -/
def UTXOSet.process_transaction (s : UTXOSet) (tx : Transaction) : Bool × UTXOSet :=
  if tx.is_coinbase then (true, addOutputs tx.txid s 0 tx.outputs)
  else
    match removeInputs s tx.inputs with
    | (false, s₁) => (false, s₁)
    | (true, s₁) => (true, addOutputs tx.txid s₁ 0 tx.outputs)

/-- The input-summation loop of UTXOSet.validate_transaction: the first
missing outpoint yields the error, otherwise the amounts are summed. -/
def UTXOSet.sumInputAmounts (s : UTXOSet) : List TxInput → Except String ℚ
  | [] => Except.ok 0
  | inp :: rest =>
      match s.get_utxo inp.txid inp.vout with
      | none => Except.error ("UTXO not found: " ++ inp.txid ++ ":" ++ Nat.repr inp.vout)
      | some u =>
          match UTXOSet.sumInputAmounts s rest with
          | Except.ok acc => Except.ok (u.amount + acc)
          | Except.error e => Except.error e

/-- UTXOSet.validate_transaction of utxo_set.py. -/
def UTXOSet.validate_transaction (s : UTXOSet) (tx : Transaction) : Bool × String :=
  if tx.is_coinbase then (true, "")
  else
    let total_output : ℚ := (tx.outputs.map TxOutput.amount).sum
    match s.sumInputAmounts tx.inputs with
    | Except.error e => (false, e)
    | Except.ok total_input =>
        if total_input < total_output then
          (false, "Insufficient funds: " ++ toString total_input ++ " < " ++
            toString total_output)
        else (true, "")

/-- JSON rendering of a string field (the payloads are hex strings and
base58 addresses, which need no escaping). -/
def jsonStr (s : String) : String := "\"" ++ s ++ "\""

/-- JSON rendering of a list. -/
def jsonList (elems : List String) : String :=
  "[" ++ String.intercalate ", " elems ++ "]"

/-- TxInput.to_dict of transaction.py rendered with sorted keys, as by
json.dumps(..., sort_keys=True). -/
def TxInput.toJson (inp : TxInput) : String :=
  "\x7b\"script_sig\": " ++ jsonStr inp.script_sig ++ ", \"sequence\": " ++
    Nat.repr inp.sequence ++ ", \"txid\": " ++ jsonStr inp.txid ++
    ", \"vout\": " ++ Nat.repr inp.vout ++ "\x7d"

/-- TxOutput.to_dict of transaction.py rendered with sorted keys. -/
def TxOutput.toJson (out : TxOutput) : String :=
  "\x7b\"amount\": " ++ toString out.amount ++ ", \"script_pubkey\": " ++
    jsonStr out.script_pubkey ++ "\x7d"

/-- Transaction.to_dict(include_txid=False) of transaction.py rendered
with sorted keys: the canonical serialization hashed by calculate_txid.
Note that it contains every script_sig. -/
def Transaction.toJsonNoTxid (tx : Transaction) : String :=
  "\x7b\"inputs\": " ++ jsonList (tx.inputs.map TxInput.toJson) ++
    ", \"locktime\": " ++ Nat.repr tx.locktime ++
    ", \"outputs\": " ++ jsonList (tx.outputs.map TxOutput.toJson) ++
    ", \"timestamp\": " ++ toString tx.timestamp ++
    ", \"version\": " ++ Nat.repr tx.version ++ "\x7d"

/-- Transaction.calculate_txid of transaction.py. -/
def Transaction.calculate_txid (H : HashModel) (tx : Transaction) : String :=
  H.hashStr tx.toJsonNoTxid

/-- Transaction.__init__ of transaction.py: the txid field is assigned
once, from the serialization of the freshly built transaction. -/
def Transaction.create (H : HashModel) (inputs : List TxInput)
    (outputs : List TxOutput) (locktime : Nat) (timestamp : ℚ) : Transaction :=
  let base : Transaction :=
    { version := 1, inputs := inputs, outputs := outputs,
      locktime := locktime, timestamp := timestamp, txid := "" }
  { base with txid := Transaction.calculate_txid H base }

/-- Rendering of one input inside the signing image: the stored
script_sig is replaced by the given string. -/
def signingInputJson (inp : TxInput) (sg : String) : String :=
  "\x7b\"script_sig\": " ++ jsonStr sg ++ ", \"sequence\": " ++
    Nat.repr inp.sequence ++ ", \"txid\": " ++ jsonStr inp.txid ++
    ", \"vout\": " ++ Nat.repr inp.vout ++ "\x7d"

/-- Transaction.get_signing_data of transaction.py: the transaction is
serialized with the input being signed carrying script_sig
"PLACEHOLDER" and every other input carrying "".  The stored
script_sig values are never read. -/
def Transaction.get_signing_data (tx : Transaction) (input_index : Nat) : String :=
  "\x7b\"inputs\": " ++
    jsonList (tx.inputs.enum.map (fun p =>
      signingInputJson p.2 (if p.1 = input_index then "PLACEHOLDER" else ""))) ++
    ", \"locktime\": " ++ Nat.repr tx.locktime ++
    ", \"outputs\": " ++ jsonList (tx.outputs.map TxOutput.toJson) ++
    ", \"timestamp\": " ++ toString tx.timestamp ++
    ", \"version\": " ++ Nat.repr tx.version ++ "\x7d"

/-- Replace the script_sig of the input at the given index, as the
signing loop of Blockchain.create_transaction and the temporary
clearing in Blockchain.verify_transaction_signature do. -/
def Transaction.setScriptSig (tx : Transaction) (i : Nat) (sg : String) : Transaction :=
  { tx with inputs := tx.inputs.enum.map (fun p =>
      if p.1 = i then { p.2 with script_sig := sg } else p.2) }

/-- The signing loop of Blockchain.create_transaction (chain.py): for
each input index in order, sign the signing image and store
signature ":" pubkey in the script_sig of that input.  The txid is
deliberately not recomputed. -/
def signInputsGo (S : SigModel) (sk : String) (tx : Transaction) : Nat → Transaction
  | 0 => tx
  | k + 1 =>
      let tx₁ := signInputsGo S sk tx k
      tx₁.setScriptSig k (S.sign sk (tx₁.get_signing_data k) ++ ":" ++ S.pubkeyOf sk)

/-- Sign every input of a transaction (the full loop of
Blockchain.create_transaction). -/
def signInputs (S : SigModel) (sk : String) (tx : Transaction) : Transaction :=
  signInputsGo S sk tx tx.inputs.length

/-- The duplication step of merkle_tree.py: when a level has odd
cardinality the last element is appended once more. -/
def padEven (txids : List String) : List String :=
  if txids.length % 2 = 0 then txids else txids ++ [txids.getLastD ""]

/-- One level of parent hashes: pairwise combination in order, as the
range(0, len, 2) loop of merkle_tree.py over an even-length level. -/
def pairUp (hashPair : String → String → String) : List String → List String
  | a :: b :: rest => hashPair a b :: pairUp hashPair rest
  | _ => []

/-- MerkleTree.build_tree of merkle_tree.py. -/
def build_tree (hashPair : String → String → String) : List String → String
  | [] => zeros64
  | [a] => a
  | a :: b :: rest => build_tree hashPair (pairUp hashPair (padEven (a :: b :: rest)))
termination_by l => l.length
decreasing_by
  have hp : ∀ n (l : List String), l.length ≤ n →
      (pairUp hashPair l).length = l.length / 2 := by
    intro n
    induction n with
    | zero =>
        intro l hl
        cases l with
        | nil => rfl
        | cons x t => simp at hl
    | succ k ih =>
        intro l hl
        cases l with
        | nil => rfl
        | cons x t =>
            cases t with
            | nil => simp [pairUp]
            | cons y r =>
                have hr : r.length ≤ k := by
                  simp only [List.length_cons] at hl
                  omega
                simp only [pairUp, List.length_cons, ih r hr]
                omega
  have h1 := hp (padEven (a :: b :: rest)).length (padEven (a :: b :: rest)) (le_refl _)
  have h2 : (padEven (a :: b :: rest)).length = (a :: b :: rest).length ∨
      (padEven (a :: b :: rest)).length = (a :: b :: rest).length + 1 := by
    unfold padEven
    split
    · exact Or.inl rfl
    · right
      simp
  simp only [List.length_cons] at *
  omega

/-- MerkleTree.get_proof while-loop of merkle_tree.py: at each level,
pad to even length, record the sibling of the current index together
with whether the sibling stands on the left, then move to the parent
level and halve the index. -/
def proofLoop (hashPair : String → String → String) :
    List String → Nat → List (String × Bool)
  | [], _ => []
  | [_], _ => []
  | a :: b :: rest, index =>
      let padded := padEven (a :: b :: rest)
      (if index % 2 = 0 then (padded.getD (index + 1) "", false)
       else (padded.getD (index - 1) "", true)) ::
        proofLoop hashPair (pairUp hashPair padded) (index / 2)
termination_by l _ => l.length
decreasing_by
  have hp : ∀ n (l : List String), l.length ≤ n →
      (pairUp hashPair l).length = l.length / 2 := by
    intro n
    induction n with
    | zero =>
        intro l hl
        cases l with
        | nil => rfl
        | cons x t => simp at hl
    | succ k ih =>
        intro l hl
        cases l with
        | nil => rfl
        | cons x t =>
            cases t with
            | nil => simp [pairUp]
            | cons y r =>
                have hr : r.length ≤ k := by
                  simp only [List.length_cons] at hl
                  omega
                simp only [pairUp, List.length_cons, ih r hr]
                omega
  have h1 := hp (padEven (a :: b :: rest)).length (padEven (a :: b :: rest)) (le_refl _)
  have h2 : (padEven (a :: b :: rest)).length = (a :: b :: rest).length ∨
      (padEven (a :: b :: rest)).length = (a :: b :: rest).length + 1 := by
    unfold padEven
    split
    · exact Or.inl rfl
    · right
      simp
  simp only [List.length_cons] at *
  omega

/-- MerkleTree.get_proof of merkle_tree.py, including the out-of-range
guard. -/
def get_proof (hashPair : String → String → String) (txids : List String)
    (tx_index : Nat) : List (String × Bool) :=
  if txids.length ≤ tx_index then [] else proofLoop hashPair txids tx_index

/-- The current-hash recomputation loop of MerkleTree.verify_proof. -/
def proofFold (hashPair : String → String → String) :
    String → List (String × Bool) → String
  | current, [] => current
  | current, (sib, isLeft) :: rest =>
      proofFold hashPair
        (if isLeft then hashPair sib current else hashPair current sib) rest

/-- MerkleTree.verify_proof of merkle_tree.py. -/
def verify_proof (hashPair : String → String → String) (txid : String)
    (proof : List (String × Bool)) (root : String) : Bool :=
  proofFold hashPair txid proof == root

/-- Block of blockchain.py.  merkle_root and hash are stored fields:
the submit endpoint (api.py submit_mined_block) overwrites both from
the submitted payload before calling add_block. -/
structure Block where
  index : Nat
  timestamp : ℚ
  transactions : List Transaction
  previous_hash : String
  difficulty : Nat
  nonce : Nat
  merkle_root : String
  hash : String
deriving DecidableEq, Repr

/-- The block header of Block.calculate_hash rendered with sorted keys. -/
def Block.headerJson (b : Block) : String :=
  "\x7b\"difficulty\": " ++ Nat.repr b.difficulty ++
    ", \"index\": " ++ Nat.repr b.index ++
    ", \"merkle_root\": " ++ jsonStr b.merkle_root ++
    ", \"nonce\": " ++ Nat.repr b.nonce ++
    ", \"previous_hash\": " ++ jsonStr b.previous_hash ++
    ", \"timestamp\": " ++ toString b.timestamp ++
    ", \"version\": 1\x7d"

/-- Block.calculate_hash of blockchain.py. -/
def Block.calculate_hash (H : HashModel) (b : Block) : String :=
  H.hashStr b.headerJson

/-- Block.verify_merkle_root of blockchain.py: rebuild the Merkle tree
over the stored transaction ids and compare with the stored root. -/
def Block.verify_merkle_root (H : HashModel) (b : Block) : Bool :=
  build_tree H.hashPair (b.transactions.map Transaction.txid) == b.merkle_root

/-- The in-memory state mutated by the Blockchain class of chain.py
(the database is outside this embedding). -/
structure ChainState where
  chain : List Block
  difficulty : Nat
  pending_transactions : List Transaction
  utxo_set : UTXOSet
deriving DecidableEq, Repr

/-- Placeholder block used to totalize chain[-1]. -/
def defaultBlock : Block := ⟨0, 0, [], "", 0, 0, "", ""⟩

/-- Blockchain.get_latest_block of chain.py (chain[-1]). -/
def Blockchain.get_latest_block (st : ChainState) : Block :=
  st.chain.getLastD defaultBlock

/-- Python str.startswith: test that pre occurs at the start of the
character sequence. -/
def strStartsWith (s pre : String) : Bool :=
  pre.data.isPrefixOf s.data

/-- Hex-digit test for the byte.fromhex decoding steps in
Blockchain.verify_transaction_signature; a malformed hex string raises
there and the verifier returns False. -/
def isHexDigitChar (c : Char) : Bool :=
  ('0' ≤ c && c ≤ '9') || ('a' ≤ c && c ≤ 'f') || ('A' ≤ c && c ≤ 'F')

/-- A string accepted by bytes.fromhex: even length, hex digits only. -/
def isValidHex (s : String) : Bool :=
  s.length % 2 = 0 && s.data.all isHexDigitChar

/-- The per-input body of Blockchain.verify_transaction_signature
(chain.py): parse script_sig as signature ":" pubkey, decode the
signature, look up the spent UTXO, derive the address from the public
key and compare, then verify the signature over the signing image of
the transaction with the script_sig of this input temporarily cleared. -/
def verifyInputSig (S : SigModel) (u : UTXOSet) (tx : Transaction)
    (i : Nat) (inp : TxInput) : Bool :=
  match inp.script_sig.splitOn ":" with
  | [signature_hex, public_key_hex] =>
      if !isValidHex signature_hex then false
      else
        match u.get_utxo inp.txid inp.vout with
        | none => false
        | some utxo =>
            if !isValidHex public_key_hex then false
            else if S.addressOfPub public_key_hex != utxo.script_pubkey then false
            else
              S.verify public_key_hex signature_hex
                (Transaction.get_signing_data (tx.setScriptSig i "") i)
  | _ => false

/-- Blockchain.verify_transaction_signature of chain.py. -/
def Blockchain.verify_transaction_signature (S : SigModel) (u : UTXOSet)
    (tx : Transaction) : Bool :=
  if tx.is_coinbase then true
  else tx.inputs.enum.all (fun p => verifyInputSig S u tx p.1 p.2)

/-- Outpoint collision between the inputs of two transactions, the
inner double loop of the mempool double-spend check in
Blockchain.add_transaction. -/
def sharesOutpoint (a b : Transaction) : Bool :=
  a.inputs.any (fun ai =>
    b.inputs.any (fun bi => ai.txid == bi.txid && ai.vout == bi.vout))

/-- The mempool double-spend scan of Blockchain.add_transaction. -/
def mempoolConflict (pool : List Transaction) (tx : Transaction) : Bool :=
  pool.any (fun pending => sharesOutpoint pending tx)

/-- Blockchain.add_transaction of chain.py. -/
def Blockchain.add_transaction (S : SigModel) (st : ChainState)
    (tx : Transaction) : (Bool × String) × ChainState :=
  if !(Blockchain.verify_transaction_signature S st.utxo_set tx) then
    ((false, "Invalid signature"), st)
  else
    match st.utxo_set.validate_transaction tx with
    | (false, e) => ((false, e), st)
    | (true, _) =>
        if mempoolConflict st.pending_transactions tx then
          ((false, "Double spend detected in mempool"), st)
        else
          ((true, ""),
            { st with pending_transactions := st.pending_transactions ++ [tx] })

/-- The transaction-processing loop of Blockchain.add_block: each
transaction is applied to the live UTXO set; the first failure aborts
the loop but keeps every mutation already made. -/
def processAll : UTXOSet → List Transaction → Bool × UTXOSet
  | s, [] => (true, s)
  | s, tx :: rest =>
      match s.process_transaction tx with
      | (false, s₁) => (false, s₁)
      | (true, s₁) => processAll s₁ rest

/-- Blockchain.add_block of chain.py: check the stored hash for the
difficulty-many leading zero characters, check the previous-hash link,
check the Merkle root, then process all transactions against the live
UTXO set and append the block on success. -/
def Blockchain.add_block (H : HashModel) (st : ChainState) (b : Block) :
    Bool × ChainState :=
  if !(strStartsWith b.hash (String.mk (List.replicate st.difficulty '0'))) then
    (false, st)
  else if b.previous_hash != (Blockchain.get_latest_block st).hash then
    (false, st)
  else if !(Block.verify_merkle_root H b) then (false, st)
  else
    match processAll st.utxo_set b.transactions with
    | (false, u) => (false, { st with utxo_set := u })
    | (true, u) => (true, { st with chain := st.chain ++ [b], utxo_set := u })

/-- The base mining reward of chain.py (self.mining_reward). -/
def mining_reward : ℚ := 50

/-- The halving interval of chain.py (self.halving_interval). -/
def halving_interval : Nat := 210000

/-- Blockchain.get_current_mining_reward of chain.py, as a function of
the blockchain height it reads from the database. -/
def Blockchain.get_current_mining_reward (actual_height : Nat) : ℚ :=
  mining_reward / 2 ^ (actual_height / halving_interval)

/-- UTXO sets reachable from the empty set by the public mutating
operations of utxo_set.py. -/
inductive UTXOSet.Reachable : UTXOSet → Prop
  | empty : UTXOSet.Reachable ⟨[]⟩
  | add (s : UTXOSet) (u : UTXO) :
      UTXOSet.Reachable s → UTXOSet.Reachable (s.add_utxo u)
  | remove (s : UTXOSet) (txid : String) (vout : Nat) :
      UTXOSet.Reachable s → UTXOSet.Reachable (s.remove_utxo txid vout).2
  | process (s : UTXOSet) (tx : Transaction) :
      UTXOSet.Reachable s → UTXOSet.Reachable (s.process_transaction tx).2

/-- No two distinct mempool entries share an input outpoint. -/
def PairwiseExclusive (pool : List Transaction) : Prop :=
  List.Pairwise (fun a b => sharesOutpoint a b = false) pool

/-- The outpoint-independent part of an input. -/
def stripSig (inp : TxInput) : String × Nat × Nat :=
  (inp.txid, inp.vout, inp.sequence)

/-- Decimal digit value of a character. -/
def digitVal (c : Char) : Nat := c.toNat - 48

/-- Decode a decimal digit string back to a number. -/
def decodeDigits (l : List Char) : Nat :=
  l.foldl (fun acc c => 10 * acc + digitVal c) 0

/-- Reference decimal rendering of a natural number, used to reason
about Nat.repr. -/
def specDigits (n : Nat) : List Char :=
  if n < 10 then [Nat.digitChar n]
  else specDigits (n / 10) ++ [Nat.digitChar (n % 10)]
termination_by n
decreasing_by
  exact Nat.div_lt_self (by omega) (by omega)

/-- Entry keys compared by the invariant proofs: every binding of a
reachable UTXO set renders its own UTXO. -/
def KeyConsistent (s : UTXOSet) : Prop :=
  ∀ p ∈ s.utxos, p.1 = mkKey p.2.txid p.2.vout

/-- Placeholder transaction used to totalize head access. -/
def defaultTx : Transaction :=
  { version := 1, inputs := [], outputs := [], locktime := 0, timestamp := 0, txid := "" }

/-- Hash model whose string hash is the identity and whose pair hash is
concatenation, used to instantiate abstract-hash statements. -/
def idHash : HashModel := ⟨fun s => s, fun a b => a ++ b⟩

/-- Signature model where a signature is the signed message itself and
verification compares them, satisfying the correctness law. -/
def trivSig : SigModel :=
  ⟨fun _ m => m, fun _ sg m => sg == m, fun sk => sk, fun p => p⟩

/-- Concrete genesis block used by the admission scenarios. -/
def genesisB : Block := ⟨0, 0, [], zeros64, 0, 0, zeros64, "gh"⟩

/-- Chain state holding the genesis block, difficulty 0, no pending
transactions, and one spendable outpoint u0:0. -/
def stC1 : ChainState := ⟨[genesisB], 0, [], ⟨[(mkKey "u0" 0, ⟨"u0", 0, 5, "A"⟩)]⟩⟩

/-- Transaction spending the existing outpoint u0:0 and then the
absent outpoint zz:0. -/
def badTxC1 : Transaction :=
  ⟨1, [⟨"u0", 0, "s", 4294967295⟩, ⟨"zz", 0, "s", 4294967295⟩], [], 0, 0, "d1"⟩

/-- Block whose only transaction fails midway while being applied. -/
def blkC1 : Block := ⟨1, 0, [badTxC1], "gh", 0, 0, "d1", ""⟩

/-- Chain state holding only the genesis block and an empty UTXO set. -/
def stEmpty : ChainState := ⟨[genesisB], 0, [], ⟨[]⟩⟩

/-- Coinbase transaction paying 1000000 BSP, far above any reward. -/
def bigCoinbase : Transaction :=
  ⟨1, [⟨zeros64, 4294967295, "cb", 4294967295⟩], [⟨1000000, "M"⟩], 0, 0, "cb2"⟩

/-- Block at index 1 whose coinbase pays 1000000 BSP. -/
def blkC2 : Block := ⟨1, 0, [bigCoinbase], "gh", 0, 0, "cb2", ""⟩

/-- The same block content with index 5, which is not the height. -/
def blkC3 : Block := ⟨5, 0, [bigCoinbase], "gh", 0, 0, "cb2", ""⟩

/-- Hash model whose string hash is constantly "zz", exhibiting a
stored hash that does not re-derive. -/
def constHash : HashModel := ⟨fun _ => "zz", fun a b => a ++ b⟩

/-- Chain state at difficulty 2 over the genesis block. -/
def stC4 : ChainState := ⟨[genesisB], 2, [], ⟨[]⟩⟩

/-- Block whose stored hash "00" meets difficulty 2 but differs from
the hash re-derived by calculate_hash under constHash. -/
def blkC4 : Block := ⟨1, 0, [bigCoinbase], "gh", 2, 0, "cb2", "00"⟩

/-- Block whose previous_hash does not match the tip. -/
def blkBadPrev : Block := ⟨1, 0, [], "wrong", 0, 0, zeros64, ""⟩

/-- One-input transaction used to show that calculate_txid depends on
script_sig. -/
def txC5 : Transaction := ⟨1, [⟨"aa", 0, "", 4294967295⟩], [], 0, 0, "t5"⟩

/-- Transaction with one input and one output, used for the signing
witnesses. -/
def txC6 : Transaction := ⟨1, [⟨"pp", 0, "", 4294967295⟩], [⟨3, "B"⟩], 0, 0, "t6"⟩

/-- A pending coinbase already occupying the coinbase outpoint. -/
def pendingCb : Transaction :=
  ⟨1, [⟨zeros64, 4294967295, "cb0", 4294967295⟩], [⟨7, "P"⟩], 0, 0, "p1"⟩

/-- Chain state whose mempool holds pendingCb. -/
def stC7 : ChainState := ⟨[genesisB], 0, [pendingCb], ⟨[]⟩⟩

/-- A second coinbase sharing the coinbase outpoint with pendingCb. -/
def cbC7 : Transaction :=
  ⟨1, [⟨zeros64, 4294967295, "cb1", 4294967295⟩], [⟨9, "Q"⟩], 0, 0, "p2"⟩

theorem pairUp_length (h2 : String → String → String) :
    ∀ l : List String, (pairUp h2 l).length = l.length / 2
  | [] => rfl
  | [a] => by simp [pairUp]
  | a :: b :: rest => by
      simp only [pairUp, List.length_cons, pairUp_length h2 rest]
      omega

theorem pairUp_getD (h2 : String → String → String) :
    ∀ (l : List String) (i : Nat), 2 * i + 1 < l.length →
      (pairUp h2 l).getD i "" = h2 (l.getD (2 * i) "") (l.getD (2 * i + 1) "")
  | [], i, h => by simp at h
  | [a], i, h => by
      simp only [List.length_singleton] at h
      omega
  | a :: b :: rest, 0, h => by simp [pairUp]
  | a :: b :: rest, i + 1, h => by
      have hr : 2 * i + 1 < rest.length := by
        simp only [List.length_cons] at h
        omega
      have e1 : (a :: b :: rest).getD (2 * (i + 1)) "" = rest.getD (2 * i) "" := by
        have e : 2 * (i + 1) = 2 * i + 1 + 1 := by ring
        rw [e, List.getD_cons_succ, List.getD_cons_succ]
      have e2 : (a :: b :: rest).getD (2 * (i + 1) + 1) "" = rest.getD (2 * i + 1) "" := by
        have e : 2 * (i + 1) + 1 = 2 * i + 1 + 1 + 1 := by ring
        rw [e, List.getD_cons_succ, List.getD_cons_succ]
      rw [e1, e2]
      simp only [pairUp, List.getD_cons_succ]
      exact pairUp_getD h2 rest i hr

theorem padEven_length_mod (l : List String) : (padEven l).length % 2 = 0 := by
  unfold padEven
  split
  · assumption
  · simp only [List.length_append, List.length_singleton]
    omega

theorem padEven_length_ge (l : List String) : l.length ≤ (padEven l).length := by
  unfold padEven
  split
  · exact le_refl _
  · simp

theorem padEven_length_le (l : List String) : (padEven l).length ≤ l.length + 1 := by
  unfold padEven
  split
  · omega
  · simp

theorem padEven_getD (l : List String) (i : Nat) (h : i < l.length) :
    (padEven l).getD i "" = l.getD i "" := by
  unfold padEven
  split
  · rfl
  · exact List.getD_append _ _ _ _ h

theorem build_tree_nil (h2 : String → String → String) :
    build_tree h2 [] = zeros64 := by
  simp [build_tree]

theorem build_tree_single (h2 : String → String → String) (a : String) :
    build_tree h2 [a] = a := by
  simp [build_tree]

theorem build_tree_cons2 (h2 : String → String → String) (a b : String)
    (rest : List String) :
    build_tree h2 (a :: b :: rest) =
      build_tree h2 (pairUp h2 (padEven (a :: b :: rest))) := by
  simp only [build_tree]

theorem proofLoop_spec (h2 : String → String → String) :
    ∀ (l : List String) (i : Nat), i < l.length →
      proofFold h2 (l.getD i "") (proofLoop h2 l i) = build_tree h2 l
  | [], i, h => by simp at h
  | [a], i, h => by
      have hi : i = 0 := by
        simp only [List.length_singleton] at h
        omega
      subst hi
      simp [proofLoop, proofFold, build_tree]
  | a :: b :: rest, i, h => by
      have hpadmod : (padEven (a :: b :: rest)).length % 2 = 0 := padEven_length_mod _
      have hge := padEven_length_ge (a :: b :: rest)
      have hplen := pairUp_length h2 (padEven (a :: b :: rest))
      have hiP : i < (padEven (a :: b :: rest)).length := lt_of_lt_of_le h hge
      have hnext : i / 2 < (pairUp h2 (padEven (a :: b :: rest))).length := by
        rw [hplen]
        omega
      have ih := proofLoop_spec h2 (pairUp h2 (padEven (a :: b :: rest))) (i / 2) hnext
      rw [build_tree_cons2, ← ih]
      simp only [proofLoop]
      by_cases hpar : i % 2 = 0
      · rw [if_pos hpar]
        have hb : 2 * (i / 2) + 1 < (padEven (a :: b :: rest)).length := by omega
        have hstep : (pairUp h2 (padEven (a :: b :: rest))).getD (i / 2) "" =
            h2 ((a :: b :: rest).getD i "")
              ((padEven (a :: b :: rest)).getD (i + 1) "") := by
          rw [pairUp_getD h2 _ (i / 2) hb]
          have e0 : 2 * (i / 2) = i := by omega
          rw [e0, padEven_getD _ _ h]
        simp only [proofFold]
        rw [if_neg (by decide), hstep]
      · rw [if_neg hpar]
        have hb : 2 * (i / 2) + 1 < (padEven (a :: b :: rest)).length := by omega
        have hstep : (pairUp h2 (padEven (a :: b :: rest))).getD (i / 2) "" =
            h2 ((padEven (a :: b :: rest)).getD (i - 1) "")
              ((a :: b :: rest).getD i "") := by
          rw [pairUp_getD h2 _ (i / 2) hb]
          have e1 : 2 * (i / 2) + 1 = i := by omega
          have e0 : 2 * (i / 2) = i - 1 := by omega
          rw [e1, e0, padEven_getD _ _ h]
        simp only [proofFold]
        rw [if_pos (by decide), hstep]
termination_by l _ _ => l.length
decreasing_by
  have hplen := pairUp_length h2 (padEven (a :: b :: rest))
  have hle := padEven_length_le (a :: b :: rest)
  have hge := padEven_length_ge (a :: b :: rest)
  simp only [List.length_cons] at *
  omega

/-- C8: for every non-empty list of transaction ids and every index
into it, the proof produced by MerkleTree.get_proof verifies against
the root produced by MerkleTree.build_tree, for any pair-hash
function. -/
theorem merkle_proof_round_trip (h2 : String → String → String)
    (txids : List String) (i : Nat) (hne : txids ≠ []) (hi : i < txids.length) :
    verify_proof h2 (txids.getD i "") (get_proof h2 txids i)
      (build_tree h2 txids) = true := by
  unfold get_proof
  rw [if_neg (by omega)]
  unfold verify_proof
  rw [proofLoop_spec h2 txids i hi]
  exact beq_self_eq_true _

/-- Witness: the round trip at a concrete three-leaf tree with the
concatenation pair-hash. -/
theorem merkle_proof_round_trip_witness :
    verify_proof (fun a b => a ++ b) (["aa", "bb", "cc"].getD 1 "")
      (get_proof (fun a b => a ++ b) ["aa", "bb", "cc"] 1)
      (build_tree (fun a b => a ++ b) ["aa", "bb", "cc"]) = true :=
  merkle_proof_round_trip (fun a b => a ++ b) ["aa", "bb", "cc"] 1
    (by decide) (by decide)

theorem digitChar_ne_colon (n : Nat) : Nat.digitChar n ≠ ':' := by
  by_cases h : n < 16
  · exact (by decide : ∀ m, m < 16 → Nat.digitChar m ≠ ':') n h
  · have e : Nat.digitChar n = '*' := by
      unfold Nat.digitChar
      repeat rw [if_neg (by omega)]
    rw [e]
    decide

theorem digitVal_digitChar : ∀ m : Nat, m < 10 → digitVal (Nat.digitChar m) = m := by
  decide

theorem specDigits_lt (n : Nat) (h : n < 10) : specDigits n = [Nat.digitChar n] := by
  conv_lhs => unfold specDigits
  rw [if_pos h]

theorem specDigits_ge (n : Nat) (h : 10 ≤ n) :
    specDigits n = specDigits (n / 10) ++ [Nat.digitChar (n % 10)] := by
  conv_lhs => unfold specDigits
  rw [if_neg (by omega)]

theorem specDigits_ne_colon (n : Nat) : ∀ c ∈ specDigits n, c ≠ ':' := by
  intro c hc
  unfold specDigits at hc
  split at hc
  · simp only [List.mem_singleton] at hc
    subst hc
    exact digitChar_ne_colon _
  · rcases List.mem_append.mp hc with h1 | h1
    · exact specDigits_ne_colon (n / 10) c h1
    · simp only [List.mem_singleton] at h1
      subst h1
      exact digitChar_ne_colon _
termination_by n
decreasing_by exact Nat.div_lt_self (by omega) (by omega)

theorem decode_append (l : List Char) (c : Char) :
    decodeDigits (l ++ [c]) = 10 * decodeDigits l + digitVal c := by
  simp [decodeDigits, List.foldl_append]

theorem decode_specDigits (n : Nat) : decodeDigits (specDigits n) = n := by
  unfold specDigits
  split
  case isTrue h10 =>
    simp [decodeDigits, digitVal_digitChar n h10]
  case isFalse h10 =>
    rw [decode_append, decode_specDigits (n / 10), digitVal_digitChar _ (by omega)]
    omega
termination_by n
decreasing_by exact Nat.div_lt_self (by omega) (by omega)

theorem toDigitsCore_spec : ∀ (fuel n : Nat) (ds : List Char), n < fuel →
    Nat.toDigitsCore 10 fuel n ds = specDigits n ++ ds
  | 0, n, ds, h => by omega
  | fuel + 1, n, ds, h => by
      simp only [Nat.toDigitsCore]
      by_cases h0 : n / 10 = 0
      · rw [if_pos h0]
        rw [specDigits_lt n (by omega)]
        have e : n % 10 = n := Nat.mod_eq_of_lt (by omega)
        rw [e]
        rfl
      · rw [if_neg h0]
        have hge : 10 ≤ n := by
          by_contra hlt
          exact h0 (Nat.div_eq_of_lt (by omega))
        have hlt : n / 10 < n := Nat.div_lt_self (by omega) (by omega)
        rw [toDigitsCore_spec fuel (n / 10) (Nat.digitChar (n % 10) :: ds) (by omega)]
        rw [specDigits_ge n hge]
        simp [List.append_assoc]

theorem repr_data (n : Nat) : (Nat.repr n).data = specDigits n := by
  unfold Nat.repr Nat.toDigits
  rw [toDigitsCore_spec (n + 1) n [] (by omega)]
  simp [List.asString]

theorem repr_injective {m n : Nat} (h : Nat.repr m = Nat.repr n) : m = n := by
  have hd : specDigits m = specDigits n := by
    rw [← repr_data, ← repr_data, h]
  have hm := decode_specDigits m
  rw [hd, decode_specDigits n] at hm
  exact hm.symm

theorem repr_no_colon (n : Nat) : ':' ∉ (Nat.repr n).data := by
  rw [repr_data]
  intro hmem
  exact specDigits_ne_colon n ':' hmem rfl

theorem colon_split_inj : ∀ (x₁ y₁ x₂ y₂ : List Char),
    x₁ ++ ':' :: y₁ = x₂ ++ ':' :: y₂ → ':' ∉ y₁ → ':' ∉ y₂ → x₁ = x₂ ∧ y₁ = y₂
  | [], y₁, [], y₂, h, _, _ => by
      simp only [List.nil_append] at h
      exact ⟨rfl, by injection h⟩
  | [], y₁, c :: x₂, y₂, h, hy₁, _ => by
      simp only [List.nil_append, List.cons_append] at h
      injection h with h1 h2
      exfalso
      apply hy₁
      rw [h2]
      simp
  | c :: x₁, y₁, [], y₂, h, _, hy₂ => by
      simp only [List.nil_append, List.cons_append] at h
      injection h with h1 h2
      exfalso
      apply hy₂
      rw [← h2]
      simp
  | c :: x₁, y₁, d :: x₂, y₂, h, hy₁, hy₂ => by
      simp only [List.cons_append] at h
      injection h with h1 h2
      obtain ⟨e1, e2⟩ := colon_split_inj x₁ y₁ x₂ y₂ h2 hy₁ hy₂
      exact ⟨by rw [h1, e1], e2⟩

theorem mkKey_inj {t₁ t₂ : String} {v₁ v₂ : Nat}
    (h : mkKey t₁ v₁ = mkKey t₂ v₂) : t₁ = t₂ ∧ v₁ = v₂ := by
  have hcolon : (":" : String).data = [':'] := rfl
  have hd : t₁.data ++ ':' :: (Nat.repr v₁).data =
      t₂.data ++ ':' :: (Nat.repr v₂).data := by
    have hq := congrArg String.data h
    simpa [mkKey, String.data_append, hcolon, List.append_assoc] using hq
  obtain ⟨e1, e2⟩ := colon_split_inj _ _ _ _ hd (repr_no_colon v₁) (repr_no_colon v₂)
  exact ⟨String.ext e1, repr_injective (String.ext e2)⟩

theorem mem_listInsert (k : String) (u : UTXO) :
    ∀ (l : List (String × UTXO)) (p : String × UTXO),
      p ∈ listInsert k u l → p = (k, u) ∨ p ∈ l
  | [], p, h => by
      simp only [listInsert, List.mem_singleton] at h
      exact Or.inl h
  | (k₀, u₀) :: rest, p, h => by
      simp only [listInsert] at h
      split at h
      · rcases List.mem_cons.mp h with h1 | h1
        · exact Or.inl h1
        · exact Or.inr (List.mem_cons_of_mem _ h1)
      · rcases List.mem_cons.mp h with h1 | h1
        · exact Or.inr (h1 ▸ List.mem_cons_self _ _)
        · rcases mem_listInsert k u rest p h1 with h2 | h2
          · exact Or.inl h2
          · exact Or.inr (List.mem_cons_of_mem _ h2)

theorem mem_listRemove (k : String) :
    ∀ (l : List (String × UTXO)) (p : String × UTXO), p ∈ listRemove k l → p ∈ l
  | [], p, h => by simpa [listRemove] using h
  | (k₀, u₀) :: rest, p, h => by
      simp only [listRemove] at h
      split at h
      · exact List.mem_cons_of_mem _ h
      · rcases List.mem_cons.mp h with h1 | h1
        · exact h1 ▸ List.mem_cons_self _ _
        · exact List.mem_cons_of_mem _ (mem_listRemove k rest p h1)

theorem listLookup_mem (k : String) :
    ∀ (l : List (String × UTXO)) (u : UTXO), listLookup k l = some u → (k, u) ∈ l
  | [], u, h => by simp [listLookup] at h
  | (k₀, u₀) :: rest, u, h => by
      simp only [listLookup] at h
      split at h
      · rename_i heq
        injection h with h1
        subst h1
        subst heq
        exact List.mem_cons_self _ _
      · exact List.mem_cons_of_mem _ (listLookup_mem k rest u h)

theorem keyConsistent_add (s : UTXOSet) (u : UTXO) (hs : KeyConsistent s) :
    KeyConsistent (s.add_utxo u) := by
  intro p hp
  rcases mem_listInsert _ _ _ p hp with h1 | h1
  · subst h1
    rfl
  · exact hs p h1

theorem keyConsistent_remove (s : UTXOSet) (t : String) (v : Nat)
    (hs : KeyConsistent s) : KeyConsistent (s.remove_utxo t v).2 := by
  rcases hl : listLookup (mkKey t v) s.utxos with _ | u
  · intro p hp
    simp only [UTXOSet.remove_utxo, hl] at hp
    exact hs p hp
  · intro p hp
    simp only [UTXOSet.remove_utxo, hl] at hp
    exact hs p (mem_listRemove _ _ p hp)

theorem keyConsistent_addOutputs (txid : String) :
    ∀ (outs : List TxOutput) (s : UTXOSet) (v : Nat), KeyConsistent s →
      KeyConsistent (addOutputs txid s v outs)
  | [], s, v, hs => hs
  | out :: rest, s, v, hs =>
      keyConsistent_addOutputs txid rest _ (v + 1) (keyConsistent_add s _ hs)

theorem keyConsistent_removeInputs :
    ∀ (inps : List TxInput) (s : UTXOSet), KeyConsistent s →
      KeyConsistent (removeInputs s inps).2
  | [], s, hs => hs
  | inp :: rest, s, hs => by
      have hks₁ : KeyConsistent (s.remove_utxo inp.txid inp.vout).2 :=
        keyConsistent_remove s inp.txid inp.vout hs
      simp only [removeInputs]
      rcases hr : s.remove_utxo inp.txid inp.vout with ⟨r, s₁⟩
      rw [hr] at hks₁
      cases r
      · exact hks₁
      · exact keyConsistent_removeInputs rest s₁ hks₁

theorem keyConsistent_process (s : UTXOSet) (tx : Transaction)
    (hs : KeyConsistent s) : KeyConsistent (s.process_transaction tx).2 := by
  unfold UTXOSet.process_transaction
  split
  · exact keyConsistent_addOutputs _ _ _ _ hs
  · have hks₁ : KeyConsistent (removeInputs s tx.inputs).2 :=
      keyConsistent_removeInputs tx.inputs s hs
    rcases hr : removeInputs s tx.inputs with ⟨ok, s₁⟩
    rw [hr] at hks₁
    cases ok
    · exact hks₁
    · exact keyConsistent_addOutputs _ _ _ _ hks₁

theorem reachable_keyConsistent (s : UTXOSet) (h : UTXOSet.Reachable s) :
    KeyConsistent s := by
  induction h with
  | empty =>
      intro p hp
      simp at hp
  | add s u hr ih => exact keyConsistent_add s u ih
  | remove s t v hr ih => exact keyConsistent_remove s t v ih
  | process s tx hr ih => exact keyConsistent_process s tx ih

/-- C10: in every UTXO set reachable from the empty set by add_utxo,
remove_utxo and process_transaction, the key of each binding is exactly the
"txid:vout" rendering of its stored UTXO, and therefore get_utxo t v
only ever returns a UTXO whose txid is t and whose vout is v. -/
theorem utxo_key_consistency (s : UTXOSet) (h : UTXOSet.Reachable s) :
    (∀ p ∈ s.utxos, p.1 = mkKey p.2.txid p.2.vout) ∧
    (∀ (t : String) (v : Nat) (u : UTXO),
      s.get_utxo t v = some u → u.txid = t ∧ u.vout = v) := by
  have hk := reachable_keyConsistent s h
  refine ⟨hk, ?_⟩
  intro t v u hg
  have hmem : (mkKey t v, u) ∈ s.utxos := listLookup_mem _ _ _ hg
  obtain ⟨e1, e2⟩ := mkKey_inj (hk _ hmem)
  exact ⟨e1.symm, e2.symm⟩

/-- Witness: key consistency evaluated on a concretely reachable
one-element set. -/
theorem utxo_key_consistency_witness :
    (⟨"aa", 0, 5, "addr"⟩ : UTXO).txid = "aa" ∧
      (⟨"aa", 0, 5, "addr"⟩ : UTXO).vout = 0 :=
  (utxo_key_consistency (UTXOSet.add_utxo ⟨[]⟩ ⟨"aa", 0, 5, "addr"⟩)
    (UTXOSet.Reachable.add _ _ UTXOSet.Reachable.empty)).2 "aa" 0 _ (by decide)

theorem add_block_fst_iff (H : HashModel) (st : ChainState) (b : Block) :
    (Blockchain.add_block H st b).1 = true ↔
      (strStartsWith b.hash (String.mk (List.replicate st.difficulty '0')) = true ∧
       b.previous_hash = (Blockchain.get_latest_block st).hash ∧
       Block.verify_merkle_root H b = true ∧
       (processAll st.utxo_set b.transactions).1 = true) := by
  unfold Blockchain.add_block
  cases h1 : strStartsWith b.hash (String.mk (List.replicate st.difficulty '0'))
  · simp
  · by_cases h2 : b.previous_hash = (Blockchain.get_latest_block st).hash
    · cases h3 : Block.verify_merkle_root H b
      · simp [h2, h3]
      · rcases hp : processAll st.utxo_set b.transactions with ⟨ok, u⟩
        cases ok
        · simp [h2, h3, hp]
        · simp [h2, h3, hp]
    · simp [h2]

/-- C1 (amended): Blockchain.add_block leaves the whole state unchanged
when it rejects at the proof-of-work, linkage, or Merkle check, and any
rejection leaves the chain and the mempool unchanged; but a rejection
while applying transactions keeps the UTXO-set mutations already made
(effects of earlier transactions and of the inputs that the failing
transaction had already removed). -/
theorem add_block_failure_scope (H : HashModel) (st : ChainState) (b : Block) :
    ((strStartsWith b.hash (String.mk (List.replicate st.difficulty '0')) = false ∨
      b.previous_hash ≠ (Blockchain.get_latest_block st).hash ∨
      Block.verify_merkle_root H b = false) →
      Blockchain.add_block H st b = (false, st)) ∧
    (∀ st₁ : ChainState, Blockchain.add_block H st b = (false, st₁) →
      st₁.chain = st.chain ∧ st₁.pending_transactions = st.pending_transactions) := by
  constructor
  · intro hfail
    rcases hfail with hf | hf | hf
    · unfold Blockchain.add_block
      rw [hf]
      rfl
    · unfold Blockchain.add_block
      split
      · rfl
      · rw [bne_iff_ne.mpr hf]
        rfl
    · unfold Blockchain.add_block
      split
      · rfl
      · split
        · rfl
        · rw [hf]
          rfl
  · intro st₁ hres
    unfold Blockchain.add_block at hres
    split at hres
    · injection hres with h1 h2
      subst h2
      exact ⟨rfl, rfl⟩
    · split at hres
      · injection hres with h1 h2
        subst h2
        exact ⟨rfl, rfl⟩
      · split at hres
        · injection hres with h1 h2
          subst h2
          exact ⟨rfl, rfl⟩
        · rcases hp : processAll st.utxo_set b.transactions with ⟨ok, u⟩
          rw [hp] at hres
          cases ok
          · injection hres with h1 h2
            subst h2
            exact ⟨rfl, rfl⟩
          · exact Bool.noConfusion (congrArg Prod.fst hres)

/-- Witness: a block with a wrong previous hash is rejected with the
state fully unchanged. -/
theorem add_block_failure_scope_witness :
    Blockchain.add_block idHash stEmpty blkBadPrev = (false, stEmpty) ∧
    (stEmpty.chain = stEmpty.chain ∧
      stEmpty.pending_transactions = stEmpty.pending_transactions) := by
  have h := add_block_failure_scope idHash stEmpty blkBadPrev
  have he := h.1 (Or.inr (Or.inl (by decide)))
  exact ⟨he, h.2 stEmpty he⟩

/-- Counterexample to C1 as stated: a block whose single transaction
fails midway is rejected by add_block, yet the UTXO set is not what it
was before the call (the outpoint u0:0 has been removed). -/
theorem add_block_atomicity_counterexample :
    (Blockchain.add_block idHash stC1 blkC1).1 = false ∧
    (Blockchain.add_block idHash stC1 blkC1).2.utxo_set ≠ stC1.utxo_set := by
  have hm : Block.verify_merkle_root idHash blkC1 = true := by
    unfold Block.verify_merkle_root
    show (build_tree idHash.hashPair ["d1"] == "d1") = true
    rw [build_tree_single]
    decide
  have hres : Blockchain.add_block idHash stC1 blkC1 =
      (false, { stC1 with utxo_set := ⟨[]⟩ }) := by
    simp only [Blockchain.add_block, hm]
    decide
  rw [hres]
  exact ⟨rfl, by decide⟩

/-- C2 (amended): Blockchain.add_block enforces no bound on the
coinbase outputs: acceptance is exactly the conjunction of the stored
hash zeros check, the linkage check, the Merkle check and the
transaction-application check, none of which mentions the coinbase
output sum or the scheduled reward. -/
theorem add_block_no_coinbase_cap (H : HashModel) (st : ChainState) (b : Block) :
    (Blockchain.add_block H st b).1 = true ↔
      (strStartsWith b.hash (String.mk (List.replicate st.difficulty '0')) = true ∧
       b.previous_hash = (Blockchain.get_latest_block st).hash ∧
       Block.verify_merkle_root H b = true ∧
       (processAll st.utxo_set b.transactions).1 = true) :=
  add_block_fst_iff H st b

/-- Witness: a concrete block accepted through the four checks of the
characterization. -/
theorem add_block_no_coinbase_cap_witness :
    (Blockchain.add_block idHash stEmpty blkC2).1 = true := by
  apply (add_block_no_coinbase_cap idHash stEmpty blkC2).mpr
  refine ⟨by decide, by decide, ?_, by decide⟩
  unfold Block.verify_merkle_root
  show (build_tree idHash.hashPair ["cb2"] == "cb2") = true
  rw [build_tree_single]
  decide

/-- Counterexample to C2 as stated: a block whose coinbase pays
1000000 BSP, far above the scheduled reward 50 for its height, is
accepted by add_block. -/
theorem add_block_coinbase_cap_counterexample :
    (Blockchain.add_block idHash stEmpty blkC2).1 = true ∧
    ((blkC2.transactions.headD defaultTx).outputs.map TxOutput.amount).sum >
      Blockchain.get_current_mining_reward blkC2.index ∧
    (blkC2.transactions.headD defaultTx).is_coinbase = true := by
  have hm : Block.verify_merkle_root idHash blkC2 = true := by
    unfold Block.verify_merkle_root
    show (build_tree idHash.hashPair ["cb2"] == "cb2") = true
    rw [build_tree_single]
    decide
  refine ⟨?_, ?_, by decide⟩
  · simp only [Blockchain.add_block, hm]
    decide
  · show ((blkC2.transactions.headD defaultTx).outputs.map TxOutput.amount).sum >
      Blockchain.get_current_mining_reward blkC2.index
    norm_num [blkC2, bigCoinbase, Blockchain.get_current_mining_reward,
      mining_reward, halving_interval]

/-- C3 (amended): Blockchain.add_block never reads block.index: its
verdict is invariant under any replacement of the index field, so a
stale or wrong-index block is never rejected because of its index
(only the previous-hash linkage constrains it). -/
theorem add_block_ignores_index (H : HashModel) (st : ChainState) (b : Block)
    (i : Nat) :
    (Blockchain.add_block H st { b with index := i }).1 =
      (Blockchain.add_block H st b).1 := by
  rcases b with ⟨idx, ts, txs, ph, df, nc, mr, hh⟩
  have h1 := add_block_fst_iff H st ⟨i, ts, txs, ph, df, nc, mr, hh⟩
  have h2 := add_block_fst_iff H st ⟨idx, ts, txs, ph, df, nc, mr, hh⟩
  simp only [Block.verify_merkle_root] at h1 h2
  show (Blockchain.add_block H st ⟨i, ts, txs, ph, df, nc, mr, hh⟩).1 =
    (Blockchain.add_block H st ⟨idx, ts, txs, ph, df, nc, mr, hh⟩).1
  cases hA : (Blockchain.add_block H st ⟨i, ts, txs, ph, df, nc, mr, hh⟩).1 <;>
    cases hB : (Blockchain.add_block H st ⟨idx, ts, txs, ph, df, nc, mr, hh⟩).1 <;>
      simp_all

/-- Counterexample to C3 as stated: at height 1 a block carrying index
5 is accepted and appended rather than rejected as an invalid index. -/
theorem add_block_index_counterexample :
    (Blockchain.add_block idHash stEmpty blkC3).1 = true ∧
    blkC3.index = 5 ∧ stEmpty.chain.length = 1 ∧
    (Blockchain.add_block idHash stEmpty blkC3).2.chain.length = 2 := by
  have hm : Block.verify_merkle_root idHash blkC3 = true := by
    unfold Block.verify_merkle_root
    show (build_tree idHash.hashPair ["cb2"] == "cb2") = true
    rw [build_tree_single]
    decide
  have hres : Blockchain.add_block idHash stEmpty blkC3 =
      (true, ⟨[genesisB, blkC3], 0, [],
        ⟨[(mkKey "cb2" 0, ⟨"cb2", 0, 1000000, "M"⟩)]⟩⟩) := by
    simp only [Blockchain.add_block, hm]
    decide
  rw [hres]
  exact ⟨rfl, by decide, by decide, by decide⟩

/-- C4 (amended): a block accepted by Blockchain.add_block does have
the difficulty-many leading zero characters on its stored hash, but
the hash is never re-derived, so acceptance does not require the
stored hash to equal calculate_hash. -/
theorem add_block_stored_hash_zeros (H : HashModel) (st : ChainState) (b : Block)
    (st₁ : ChainState) (h : Blockchain.add_block H st b = (true, st₁)) :
    strStartsWith b.hash (String.mk (List.replicate st.difficulty '0')) = true := by
  by_contra hne
  have hf : strStartsWith b.hash (String.mk (List.replicate st.difficulty '0')) = false := by
    cases hx : strStartsWith b.hash (String.mk (List.replicate st.difficulty '0'))
    · rfl
    · exact absurd hx hne
  unfold Blockchain.add_block at h
  rw [hf] at h
  simp at h

/-- Witness: the accepted difficulty-2 block satisfies the stored-hash
zeros requirement. -/
theorem add_block_stored_hash_zeros_witness :
    strStartsWith blkC4.hash (String.mk (List.replicate stC4.difficulty '0')) = true := by
  have hm : Block.verify_merkle_root constHash blkC4 = true := by
    unfold Block.verify_merkle_root
    show (build_tree constHash.hashPair ["cb2"] == "cb2") = true
    rw [build_tree_single]
    decide
  refine add_block_stored_hash_zeros constHash stC4 blkC4
    ⟨[genesisB, blkC4], 2, [], ⟨[(mkKey "cb2" 0, ⟨"cb2", 0, 1000000, "M"⟩)]⟩⟩ ?_
  simp only [Blockchain.add_block, hm]
  decide

/-- Counterexample to C4 as stated: a block is accepted although its
stored hash "00" differs from the hash calculate_hash re-derives from
its header, because add_block never re-derives the hash. -/
theorem add_block_rederive_counterexample :
    (Blockchain.add_block constHash stC4 blkC4).1 = true ∧
    Block.calculate_hash constHash blkC4 ≠ blkC4.hash := by
  have hm : Block.verify_merkle_root constHash blkC4 = true := by
    unfold Block.verify_merkle_root
    show (build_tree constHash.hashPair ["cb2"] == "cb2") = true
    rw [build_tree_single]
    decide
  refine ⟨?_, by decide⟩
  simp only [Blockchain.add_block, hm]
  decide

theorem signingInputsFrom_congr (input_index : Nat) :
    ∀ (n : Nat) (l₁ l₂ : List TxInput), l₁.map stripSig = l₂.map stripSig →
      (List.enumFrom n l₁).map (fun p =>
        signingInputJson p.2 (if p.1 = input_index then "PLACEHOLDER" else "")) =
      (List.enumFrom n l₂).map (fun p =>
        signingInputJson p.2 (if p.1 = input_index then "PLACEHOLDER" else ""))
  | _, [], [], _ => rfl
  | _, [], b :: l₂, h => by simp at h
  | _, a :: l₁, [], h => by simp at h
  | n, a :: l₁, b :: l₂, h => by
      simp only [List.map_cons, List.cons.injEq] at h
      obtain ⟨hab, hrest⟩ := h
      simp only [List.enumFrom, List.map_cons]
      congr 1
      · simp only [stripSig, Prod.mk.injEq] at hab
        obtain ⟨e1, e2, e3⟩ := hab
        simp [signingInputJson, e1, e2, e3]
      · exact signingInputsFrom_congr input_index (n + 1) l₁ l₂ hrest

theorem get_signing_data_congr (tx₁ tx₂ : Transaction)
    (hv : tx₁.version = tx₂.version)
    (hi : tx₁.inputs.map stripSig = tx₂.inputs.map stripSig)
    (ho : tx₁.outputs = tx₂.outputs) (hl : tx₁.locktime = tx₂.locktime)
    (ht : tx₁.timestamp = tx₂.timestamp) (i : Nat) :
    tx₁.get_signing_data i = tx₂.get_signing_data i := by
  unfold Transaction.get_signing_data
  rw [hv, ho, hl, ht]
  simp only [List.enum]
  rw [signingInputsFrom_congr i 0 tx₁.inputs tx₂.inputs hi]

theorem setScriptSig_stripSig (tx : Transaction) (j : Nat) (sg : String) :
    ((tx.setScriptSig j sg).inputs).map stripSig = tx.inputs.map stripSig := by
  unfold Transaction.setScriptSig
  have key : ∀ (n : Nat) (l : List TxInput),
      ((List.enumFrom n l).map (fun p =>
        if p.1 = j then { p.2 with script_sig := sg } else p.2)).map stripSig =
        l.map stripSig := by
    intro n l
    induction l generalizing n with
    | nil => rfl
    | cons a t ih =>
        simp only [List.enumFrom, List.map_cons]
        congr 1
        · by_cases hn : n = j <;> simp [hn, stripSig]
        · exact ih (n + 1)
  simp only [List.enum]
  exact key 0 tx.inputs

theorem setScriptSig_signing_data (tx : Transaction) (j : Nat) (sg : String)
    (i : Nat) :
    (tx.setScriptSig j sg).get_signing_data i = tx.get_signing_data i :=
  get_signing_data_congr (tx.setScriptSig j sg) tx rfl
    (setScriptSig_stripSig tx j sg) rfl rfl rfl i

theorem signInputsGo_stripSig (S : SigModel) (sk : String) (tx : Transaction) :
    ∀ k, ((signInputsGo S sk tx k).inputs).map stripSig = tx.inputs.map stripSig
  | 0 => rfl
  | k + 1 => by
      simp only [signInputsGo]
      rw [setScriptSig_stripSig]
      exact signInputsGo_stripSig S sk tx k

theorem signInputsGo_fields (S : SigModel) (sk : String) (tx : Transaction) :
    ∀ k, (signInputsGo S sk tx k).version = tx.version ∧
      (signInputsGo S sk tx k).outputs = tx.outputs ∧
      (signInputsGo S sk tx k).locktime = tx.locktime ∧
      (signInputsGo S sk tx k).timestamp = tx.timestamp ∧
      (signInputsGo S sk tx k).txid = tx.txid
  | 0 => ⟨rfl, rfl, rfl, rfl, rfl⟩
  | k + 1 => signInputsGo_fields S sk tx k

theorem signInputs_signing_data (S : SigModel) (sk : String) (tx : Transaction)
    (i : Nat) :
    (signInputs S sk tx).get_signing_data i = tx.get_signing_data i := by
  have hf := signInputsGo_fields S sk tx tx.inputs.length
  exact get_signing_data_congr _ _ hf.1
    (signInputsGo_stripSig S sk tx tx.inputs.length) hf.2.1 hf.2.2.1 hf.2.2.2.1 i

/-- C5 (amended): the stored txid is assigned from the unsigned
transaction at construction and never recomputed: the signing loop,
which only mutates script_sig fields, leaves the stored txid equal to
calculate_txid of the unsigned transaction.  calculate_txid itself is
not invariant under script_sig changes, since the serialization it
hashes contains every script_sig (see the counterexample). -/
theorem txid_stable_under_signing (H : HashModel) (S : SigModel) (sk : String)
    (inputs : List TxInput) (outputs : List TxOutput) (locktime : Nat)
    (timestamp : ℚ) :
    (signInputs S sk (Transaction.create H inputs outputs locktime timestamp)).txid =
      Transaction.calculate_txid H
        (Transaction.create H inputs outputs locktime timestamp) := by
  have hf := signInputsGo_fields S sk
    (Transaction.create H inputs outputs locktime timestamp)
    (Transaction.create H inputs outputs locktime timestamp).inputs.length
  exact hf.2.2.2.2.trans rfl

/-- Counterexample to C5 as stated: replacing the script_sig of the
single input changes the serialization hashed by calculate_txid, hence
its value under the identity string hash. -/
theorem calculate_txid_script_sig_counterexample :
    Transaction.calculate_txid idHash (txC5.setScriptSig 0 "bb") ≠
      Transaction.calculate_txid idHash txC5 ∧
    Transaction.toJsonNoTxid (txC5.setScriptSig 0 "bb") ≠
      Transaction.toJsonNoTxid txC5 := by
  exact ⟨by decide, by decide⟩

/-- C6: the signing image never reads the stored script_sig values, so
the image built by verify_transaction_signature after clearing the
verified input equals the image signed in create_transaction, and an
honestly produced signature verifies over it under any correct
signature scheme. -/
theorem signing_image_agreement (S : SigModel) (sk : String) (tx : Transaction)
    (i j : Nat) (sg : String)
    (hcorrect : ∀ m, S.verify (S.pubkeyOf sk) (S.sign sk m) m = true) :
    Transaction.get_signing_data (tx.setScriptSig j sg) i = tx.get_signing_data i ∧
    S.verify (S.pubkeyOf sk) (S.sign sk (tx.get_signing_data i))
      (Transaction.get_signing_data ((signInputs S sk tx).setScriptSig i "") i) =
      true := by
  refine ⟨setScriptSig_signing_data tx j sg i, ?_⟩
  rw [setScriptSig_signing_data, signInputs_signing_data]
  exact hcorrect _

/-- Witness: image agreement and successful verification at a concrete
transaction under the trivial correct scheme. -/
theorem signing_image_agreement_witness :
    Transaction.get_signing_data (txC6.setScriptSig 0 "zz") 0 =
      txC6.get_signing_data 0 ∧
    trivSig.verify (trivSig.pubkeyOf "k") (trivSig.sign "k" (txC6.get_signing_data 0))
      (Transaction.get_signing_data ((signInputs trivSig "k" txC6).setScriptSig 0 "") 0) =
      true :=
  signing_image_agreement trivSig "k" txC6 0 0 "zz" (fun m => beq_self_eq_true m)

/-- C7: under the mempool-exclusivity precondition, add_transaction
preserves exclusivity; any submission sharing an outpoint with a
pending transaction is rejected with the mempool unchanged, and when it
also passes the signature and UTXO checks the error is exactly
"Double spend detected in mempool". -/
theorem mempool_outpoint_exclusivity (S : SigModel) (st : ChainState)
    (tx : Transaction) (hexcl : PairwiseExclusive st.pending_transactions) :
    PairwiseExclusive
      ((Blockchain.add_transaction S st tx).2).pending_transactions ∧
    (mempoolConflict st.pending_transactions tx = true →
      (Blockchain.add_transaction S st tx).1.1 = false ∧
      (Blockchain.add_transaction S st tx).2 = st) ∧
    (Blockchain.verify_transaction_signature S st.utxo_set tx = true →
      (st.utxo_set.validate_transaction tx).1 = true →
      mempoolConflict st.pending_transactions tx = true →
      (Blockchain.add_transaction S st tx).1 =
        (false, "Double spend detected in mempool")) := by
  by_cases hsig : Blockchain.verify_transaction_signature S st.utxo_set tx = true
  · rcases hval : st.utxo_set.validate_transaction tx with ⟨ok, err⟩
    cases ok
    · have hres : Blockchain.add_transaction S st tx = ((false, err), st) := by
        simp [Blockchain.add_transaction, hsig, hval]
      refine ⟨?_, ?_, ?_⟩
      · rw [hres]
        exact hexcl
      · intro _
        rw [hres]
        exact ⟨rfl, rfl⟩
      · intro _ hv _
        exact absurd hv (by simp)
    · by_cases hc : mempoolConflict st.pending_transactions tx = true
      · have hres : Blockchain.add_transaction S st tx =
            ((false, "Double spend detected in mempool"), st) := by
          simp [Blockchain.add_transaction, hsig, hval, hc]
        refine ⟨?_, ?_, ?_⟩
        · rw [hres]
          exact hexcl
        · intro _
          rw [hres]
          exact ⟨rfl, rfl⟩
        · intro _ _ _
          rw [hres]
      · have hcf : mempoolConflict st.pending_transactions tx = false := by
          cases hx : mempoolConflict st.pending_transactions tx
          · rfl
          · exact absurd hx hc
        have hres : Blockchain.add_transaction S st tx = ((true, ""),
            { st with pending_transactions := st.pending_transactions ++ [tx] }) := by
          simp [Blockchain.add_transaction, hsig, hval, hcf]
        refine ⟨?_, ?_, ?_⟩
        · rw [hres]
          unfold PairwiseExclusive at hexcl ⊢
          rw [List.pairwise_append]
          refine ⟨hexcl, List.pairwise_singleton _ _, ?_⟩
          intro a ha b hb
          simp only [List.mem_singleton] at hb
          rw [hb]
          have h1 : ¬(sharesOutpoint a tx = true) := by
            intro hx
            have ht : st.pending_transactions.any (fun pending => sharesOutpoint pending tx) =
                true := List.any_eq_true.mpr ⟨a, ha, hx⟩
            unfold mempoolConflict at hcf
            rw [hcf] at ht
            exact Bool.noConfusion ht
          cases hx : sharesOutpoint a tx
          · rfl
          · exact absurd hx h1
        · intro hcc
          rw [hcf] at hcc
          exact Bool.noConfusion hcc
        · intro _ _ hcc
          rw [hcf] at hcc
          exact Bool.noConfusion hcc
  · have hsf : Blockchain.verify_transaction_signature S st.utxo_set tx = false := by
      cases hx : Blockchain.verify_transaction_signature S st.utxo_set tx
      · rfl
      · exact absurd hx hsig
    have hres : Blockchain.add_transaction S st tx =
        ((false, "Invalid signature"), st) := by
      simp [Blockchain.add_transaction, hsf]
    refine ⟨?_, ?_, ?_⟩
    · rw [hres]
      exact hexcl
    · intro _
      rw [hres]
      exact ⟨rfl, rfl⟩
    · intro hv _ _
      exact absurd hv hsig

/-- Witness: exclusivity is preserved on a concrete mempool holding a
coinbase when a second coinbase sharing the outpoint is submitted. -/
theorem mempool_outpoint_exclusivity_witness :
    PairwiseExclusive
      ((Blockchain.add_transaction trivSig stC7 cbC7).2).pending_transactions :=
  (mempool_outpoint_exclusivity trivSig stC7 cbC7
    (by simp [PairwiseExclusive, stC7])).1

/-- C9: a transaction satisfying is_coinbase passes signature
verification and UTXO validation trivially, so when no pending
transaction uses the coinbase outpoint, add_transaction appends it and
reports success, whatever its outputs are. -/
theorem add_transaction_accepts_coinbase (S : SigModel) (st : ChainState)
    (tx : Transaction) (hcb : tx.is_coinbase = true)
    (hfree : ∀ p ∈ st.pending_transactions, ∀ pi ∈ p.inputs,
      ¬(pi.txid = zeros64 ∧ pi.vout = 4294967295)) :
    Blockchain.add_transaction S st tx = ((true, ""),
      { st with pending_transactions := st.pending_transactions ++ [tx] }) := by
  have hsig : Blockchain.verify_transaction_signature S st.utxo_set tx = true := by
    unfold Blockchain.verify_transaction_signature
    rw [hcb]
    rfl
  have hval : st.utxo_set.validate_transaction tx = (true, "") := by
    unfold UTXOSet.validate_transaction
    rw [hcb]
    rfl
  have hcf : mempoolConflict st.pending_transactions tx = false := by
    unfold Transaction.is_coinbase at hcb
    rcases htx : tx.inputs with _ | ⟨inp, rest⟩
    · rw [htx] at hcb
      exact Bool.noConfusion hcb
    · rcases rest with _ | ⟨inp2, rest2⟩
      · rw [htx] at hcb
        simp only [Bool.and_eq_true, beq_iff_eq] at hcb
        obtain ⟨e1, e2⟩ := hcb
        by_contra hx
        have hx1 : mempoolConflict st.pending_transactions tx = true := by
          cases hxx : mempoolConflict st.pending_transactions tx
          · exact absurd hxx hx
          · rfl
        unfold mempoolConflict at hx1
        obtain ⟨p, hp, hshare⟩ := List.any_eq_true.mp hx1
        unfold sharesOutpoint at hshare
        obtain ⟨pi, hpi, hb⟩ := List.any_eq_true.mp hshare
        rw [htx] at hb
        obtain ⟨bi, hbi, hq⟩ := List.any_eq_true.mp hb
        simp only [List.mem_singleton] at hbi
        rw [hbi] at hq
        simp only [Bool.and_eq_true, beq_iff_eq] at hq
        exact hfree p hp pi hpi ⟨hq.1.trans e1, hq.2.trans e2⟩
      · rw [htx] at hcb
        exact Bool.noConfusion hcb
  simp [Blockchain.add_transaction, hsig, hval, hcf]

/-- Witness: the 1000000 BSP coinbase enters an empty mempool. -/
theorem add_transaction_accepts_coinbase_witness :
    Blockchain.add_transaction trivSig stEmpty bigCoinbase = ((true, ""),
      { stEmpty with pending_transactions :=
          stEmpty.pending_transactions ++ [bigCoinbase] }) :=
  add_transaction_accepts_coinbase trivSig stEmpty bigCoinbase (by decide)
    (by intro p hp; simp [stEmpty] at hp)

end Bespin
